import Mathlib

/-!
Verification of the Hopfield network relaxation engine.

The Rust source is embedded shallowly:
* `f64` scalars become `ℚ` (exact arithmetic standing in for floating point;
  all properties checked here are exact algebraic facts on small values);
* `DVector<f64>` becomes `List ℚ`, `DMatrix<f64>` becomes `List (List ℚ)`;
* the engine's `StdRng` stream is replaced by an explicit oracle: each sweep's
  `shuffle` consumes a tape of draws (`List Nat`), and a whole relaxation run
  consumes a family of tapes indexed by a sweep counter.  The Fisher-Yates
  shuffle of rand's `SliceRandom::shuffle` is embedded literally, with the
  tape providing the `gen_range(0..=i)` draws (reduced mod i+1, mirroring
  that the real draw always lies in that range);
* panics become `Option`/`Except` where a claim is about the panic itself.
-/

namespace HopfieldVerify

abbrev Vec := List ℚ
abbrev Mat := List (List ℚ)

/-- Dot product, as computed by a nalgebra row-times-column product. -/
def dotProd (u v : Vec) : ℚ := (List.zipWith (· * ·) u v).sum

/-- nalgebra `&matrix * &vector`: one dot product per matrix row. -/
def matVecMul (M : Mat) (v : Vec) : Vec := M.map (fun row => dotProd row v)

/-- From `energy_function.rs`: `-1.0 * (matrix * vector).component_mul(vector).row_sum()`. -/
def state_energy_function (M : Mat) (v : Vec) : ℚ :=
  -1 * (List.zipWith (· * ·) (matVecMul M v) v).sum

/-- From `energy_function.rs`: `(matrix * vector).scale(-1.0).component_mul(vector)`. -/
def all_unit_energies (M : Mat) (v : Vec) : Vec :=
  List.zipWith (· * ·) ((matVecMul M v).map (fun x => x * (-1))) v

/-- From `energy_function.rs`:
`-1.0 * (matrix.row(index) * vector * vector.row(index)).row_sum()`. -/
def unit_energy_function (M : Mat) (v : Vec) (index : Nat) : ℚ :=
  -1 * (dotProd (M.getD index []) v * v.getD index 0)

/-- Written following the spec formula `- Σ_i Σ_j W[i][j] · V[i] · V[j]`,
for comparison with `state_energy_function`. -/
def spec_state_energy (W : Mat) (V : Vec) (n : Nat) : ℚ :=
  -(((List.range n).map (fun i =>
      ((List.range n).map (fun j =>
        (W.getD i []).getD j 0 * V.getD i 0 * V.getD j 0)).sum)).sum)

/-- Written following the spec formula `- (Σ_j W[i][j]·V[j]) · V[i]`,
for comparison with `unit_energy_function`. -/
def spec_unit_energy (W : Mat) (V : Vec) (n i : Nat) : ℚ :=
  -(((List.range n).map (fun j => (W.getD i []).getD j 0 * V.getD j 0)).sum) * V.getD i 0

/- ### Sum conversion lemmas -/

theorem zipWith_mul_sum_eq (u : Vec) : ∀ (v : Vec), u.length = v.length →
    (List.zipWith (· * ·) u v).sum
      = ((List.range u.length).map (fun i => u.getD i 0 * v.getD i 0)).sum := by
  induction u with
  | nil => intro v _; simp
  | cons a u ih =>
    intro v hv
    cases v with
    | nil => simp at hv
    | cons b v =>
      simp only [List.length_cons, Nat.succ.injEq] at hv
      simp only [List.zipWith_cons_cons, List.sum_cons, List.length_cons,
        List.range_succ_eq_map, List.map_cons, List.map_map]
      rw [ih v hv]
      simp [Function.comp_def]

theorem matVecMul_getD (M : Mat) (v : Vec) (i : Nat) (hi : i < M.length) :
    (matVecMul M v).getD i 0 = dotProd (M.getD i []) v := by
  unfold matVecMul
  rw [List.getD_eq_getElem _ _ (by simpa using hi), List.getD_eq_getElem _ _ hi,
    List.getElem_map]

theorem matVecMul_length (M : Mat) (v : Vec) : (matVecMul M v).length = M.length := by
  simp [matVecMul]

/-- C6: the state energy computed by the code equals the spec's double sum,
and the unit energy computed by the code equals the spec's per-unit formula. -/
theorem state_and_unit_energy_match_spec (W : Mat) (V : Vec) (n : Nat)
    (hW : W.length = n) (hrows : ∀ row ∈ W, row.length = n) (hV : V.length = n) :
    state_energy_function W V = spec_state_energy W V n ∧
    ∀ i, i < n → unit_energy_function W V i = spec_unit_energy W V n i := by
  have hdot : ∀ i, i < n →
      dotProd (W.getD i []) V
        = ((List.range n).map (fun j => (W.getD i []).getD j 0 * V.getD j 0)).sum := by
    intro i hi
    have hrow : (W.getD i []).length = n := by
      rw [List.getD_eq_getElem _ _ (hW ▸ hi)]
      exact hrows _ (List.getElem_mem _)
    unfold dotProd
    rw [zipWith_mul_sum_eq _ _ (by rw [hrow, hV]), hrow]
  constructor
  · unfold state_energy_function spec_state_energy
    rw [zipWith_mul_sum_eq _ _ (by rw [matVecMul_length, hW, hV]),
      matVecMul_length, hW]
    have hmaps : (List.range n).map (fun i => (matVecMul W V).getD i 0 * V.getD i 0)
        = (List.range n).map (fun i =>
            ((List.range n).map (fun j =>
              (W.getD i []).getD j 0 * V.getD i 0 * V.getD j 0)).sum) := by
      apply List.map_congr_left
      intro i hi
      have hi' : i < n := List.mem_range.mp hi
      rw [matVecMul_getD _ _ _ (hW ▸ hi'), hdot i hi']
      rw [← List.sum_map_mul_right]
      congr 1
      apply List.map_congr_left
      intro j _
      ring
    rw [hmaps]
    ring
  · intro i hi
    unfold unit_energy_function spec_unit_energy
    rw [hdot i hi]
    ring

/-- Witness for C6 at a concrete 2-dimensional network. -/
theorem state_and_unit_energy_match_spec_witness :
    state_energy_function [[0, 1], [2, 3]] [1, -1]
        = spec_state_energy [[0, 1], [2, 3]] [1, -1] 2 ∧
    unit_energy_function [[0, 1], [2, 3]] [1, -1] 1
        = spec_unit_energy [[0, 1], [2, 3]] [1, -1] 2 1 := by
  have h := state_and_unit_energy_match_spec [[0, 1], [2, 3]] [1, -1] 2
    (by decide) (by decide) (by decide)
  exact ⟨h.1, h.2 1 (by decide)⟩

/-- C7: the matrix-vector path `all_unit_energies` agrees with the per-index
path `unit_energy_function` at every valid index. -/
theorem all_unit_energies_eq_unit_energy (W : Mat) (V : Vec) (i : Nat)
    (hiW : i < W.length) (hiV : i < V.length) :
    (all_unit_energies W V).getD i 0 = unit_energy_function W V i := by
  unfold all_unit_energies unit_energy_function
  have hlen : i < (List.zipWith (· * ·)
      ((matVecMul W V).map (fun x => x * (-1))) V).length := by
    simp [matVecMul_length]
    omega
  rw [List.getD_eq_getElem _ _ hlen, List.getElem_zipWith, List.getElem_map]
  have hmv : i < (matVecMul W V).length := by rw [matVecMul_length]; exact hiW
  have h1 : (matVecMul W V)[i] = dotProd (W.getD i []) V := by
    rw [← List.getD_eq_getElem (matVecMul W V) 0 hmv, matVecMul_getD _ _ _ hiW]
  rw [h1, ← List.getD_eq_getElem V 0 hiV]
  ring

/-- Witness for C7 at a concrete index. -/
theorem all_unit_energies_eq_unit_energy_witness :
    (all_unit_energies [[0, 1], [2, 3]] [1, -1]).getD 0 0
      = unit_energy_function [[0, 1], [2, 3]] [1, -1] 0 :=
  all_unit_energies_eq_unit_energy [[0, 1], [2, 3]] [1, -1] 0 (by decide) (by decide)

/- ### Domains and activation functions (`network_domain.rs`, `activation_function.rs`) -/

inductive NetworkDomain where
  | Unspecified
  | Binary
  | Bipolar
  | Continuous
deriving DecidableEq, Repr

abbrev ActivationFunction := Vec → Vec

/-- Binary activation: `x <= 0 -> 0.0`, else `1.0`, componentwise. -/
def binary_activation_function (v : Vec) : Vec :=
  v.map (fun i => if i ≤ 0 then (0 : ℚ) else 1)

/-- Bipolar activation: `x <= 0 -> -1.0`, else `1.0`, componentwise. -/
def bipolar_activation_function (v : Vec) : Vec :=
  v.map (fun i => if i ≤ 0 then (-1 : ℚ) else 1)

/-- Continuous activation: identity. -/
def identity_activation_function (v : Vec) : Vec := v

/-- Domain-to-activation lookup; `none` models the `expect` panic on
`Unspecified` (the map holds no entry for it). -/
def map_domain_to_activation_function : NetworkDomain → Option ActivationFunction
  | NetworkDomain.Binary => some binary_activation_function
  | NetworkDomain.Bipolar => some bipolar_activation_function
  | NetworkDomain.Continuous => some identity_activation_function
  | NetworkDomain.Unspecified => none

/- ### Fisher-Yates shuffle (rand's `SliceRandom::shuffle`) -/

/-- Swap the entries of a list at positions i and j. -/
def listSwap (l : List Nat) (i j : Nat) : List Nat :=
  (l.set i (l.getD j 0)).set j (l.getD i 0)

/-- rand's shuffle: for i from len-1 down to 1, draw j in 0..=i and swap i with j.
The tape supplies the draws; each is reduced mod (i+1) since the real draw
always lies in 0..=i. -/
def fyShuffleGo (t : List Nat) : Nat → List Nat → List Nat
  | 0, l => l
  | i + 1, l => fyShuffleGo t.tail i (listSwap l (i + 1) (t.getD 0 0 % (i + 2)))

def fyShuffle (l : List Nat) (t : List Nat) : List Nat :=
  fyShuffleGo t (l.length - 1) l

theorem listSwap_length (l : List Nat) (i j : Nat) :
    (listSwap l i j).length = l.length := by
  simp [listSwap]

theorem count_set (a x : Nat) : ∀ (l : List Nat) (i : Nat) (hi : i < l.length),
    (l.set i x).count a + (if l[i] = a then 1 else 0)
      = l.count a + (if x = a then 1 else 0) := by
  intro l
  induction l with
  | nil => intro i hi; simp at hi
  | cons b l ih =>
    intro i hi
    cases i with
    | zero =>
      simp only [List.set_cons_zero, List.getElem_cons_zero, List.count_cons]
      by_cases hb : b = a <;> by_cases hx : x = a <;> simp [hb, hx, beq_iff_eq]
    | succ i =>
      simp only [List.length_cons] at hi
      have := ih i (by omega)
      simp only [List.set_cons_succ, List.getElem_cons_succ, List.count_cons]
      by_cases hb : b = a <;> simp [hb, beq_iff_eq] <;> omega

theorem listSwap_perm (l : List Nat) (i j : Nat) (hi : i < l.length) (hj : j < l.length) :
    List.Perm (listSwap l i j) l := by
  rw [List.perm_iff_count]
  intro a
  have hswap : listSwap l i j = (l.set i l[j]).set j l[i] := by
    unfold listSwap
    rw [List.getD_eq_getElem _ _ hi, List.getD_eq_getElem _ _ hj]
  rw [hswap]
  have h1 := count_set a l[j] l i hi
  have h2 := count_set a l[i] (l.set i l[j]) j (by simpa using hj)
  by_cases hij : i = j
  · subst hij
    rw [List.getElem_set_self] at h2
    by_cases e1 : l[i] = a <;> simp [e1] at h1 h2 ⊢ <;> omega
  · rw [List.getElem_set_ne hij] at h2
    by_cases e1 : l[i] = a <;> by_cases e2 : l[j] = a <;>
      simp [e1, e2] at h1 h2 ⊢ <;> omega

theorem fyShuffleGo_perm (i : Nat) : ∀ (t : List Nat) (l : List Nat), i < l.length →
    List.Perm (fyShuffleGo t i l) l := by
  induction i with
  | zero => intro t l _; exact List.Perm.refl l
  | succ i ih =>
    intro t l hlt
    unfold fyShuffleGo
    have hswap := listSwap_perm l (i + 1) (t.getD 0 0 % (i + 2)) hlt
      (by
        have : t.getD 0 0 % (i + 2) < i + 2 := Nat.mod_lt _ (by omega)
        omega)
    have hlen : (listSwap l (i + 1) (t.getD 0 0 % (i + 2))).length = l.length :=
      listSwap_length ..
    exact List.Perm.trans (ih t.tail _ (by omega)) hswap

theorem fyShuffle_perm (l : List Nat) (t : List Nat) : List.Perm (fyShuffle l t) l := by
  unfold fyShuffle
  rcases Nat.eq_zero_or_pos l.length with h | h
  · rw [h]
    exact List.Perm.refl _
  · exact fyShuffleGo_perm _ t l (by omega)

theorem fyShuffle_range_mem (n : Nat) (t : List Nat) (i : Nat)
    (h : i ∈ fyShuffle (List.range n) t) : i < n := by
  have := (fyShuffle_perm (List.range n) t).mem_iff.mp h
  simpa using this

/- ### The network engine (`hopfield_network/mod.rs`) -/

structure HopfieldNetwork where
  matrix : Mat
  dimension : Nat
  force_symmetric : Bool
  force_zero_diagonal : Bool
  domain : NetworkDomain
  activation_fn : ActivationFunction
  maximum_relaxation_iterations : Int
  maximum_relaxation_unstable_units : Int

/-- The body of one sweep: visit the units in the given order; for each,
recompute the candidate `activation_fn(matrix * state)` from the current
working state and overwrite only that unit's component.  This is the shared
loop body of `update_state` and of `concurrent_relax_thread_fn`. -/
def sweep_units (M : Mat) (act : ActivationFunction) (order : List Nat) (s : Vec) : Vec :=
  order.foldl (fun st i => st.set i ((act (matVecMul M st)).getD i 0)) s

/-- `update_state`: shuffle the fresh index list `0..dimension` with one tape
of draws, then sweep in that order. -/
def update_state (net : HopfieldNetwork) (t : List Nat) (s : Vec) : Vec :=
  sweep_units net.matrix net.activation_fn (fyShuffle (List.range net.dimension) t) s

/-- The unstable-unit count of `relax_state`: fold over `all_unit_energies`
counting entries strictly greater than 0. -/
def unstable_units_count (M : Mat) (s : Vec) : Nat :=
  (all_unit_energies M s).countP (fun e => decide (0 < e))

/-- The loop of `relax_state`, instrumented with the number of sweeps
performed.  `σ` supplies one shuffle tape per sweep, indexed by the counter
`c` which models the advancing engine RNG stream. -/
def relaxGo (net : HopfieldNetwork) (σ : Nat → List Nat) :
    Nat → Nat → Vec → Vec × Nat
  | 0, _, s => (s, 0)
  | fuel + 1, c, s =>
    let s2 := update_state net (σ c) s
    if (unstable_units_count net.matrix s2 : Int) < net.maximum_relaxation_unstable_units
    then (s2, 1)
    else
      let r := relaxGo net σ fuel (c + 1) s2
      (r.1, r.2 + 1)

/-- `relax_state`: up to `maximum_relaxation_iterations` sweeps (no sweeps at
all when that i32 is non-positive). -/
def relax_state (net : HopfieldNetwork) (σ : Nat → List Nat) (c : Nat) (s : Vec) : Vec :=
  (relaxGo net σ net.maximum_relaxation_iterations.toNat c s).1

/-- Number of `update_state` calls performed by `relax_state`. -/
def relax_sweeps (net : HopfieldNetwork) (σ : Nat → List Nat) (c : Nat) (s : Vec) : Nat :=
  (relaxGo net σ net.maximum_relaxation_iterations.toNat c s).2

/-- The state after exactly k sweeps from counter position c. -/
def sweep_iter (net : HopfieldNetwork) (σ : Nat → List Nat) : Nat → Nat → Vec → Vec
  | 0, _, s => s
  | k + 1, c, s => sweep_iter net σ k (c + 1) (update_state net (σ c) s)

theorem relaxGo_spec (net : HopfieldNetwork) (σ : Nat → List Nat) :
    ∀ (fuel c : Nat) (s : Vec),
    (relaxGo net σ fuel c s).2 ≤ fuel ∧
    (relaxGo net σ fuel c s).1 = sweep_iter net σ (relaxGo net σ fuel c s).2 c s ∧
    ((relaxGo net σ fuel c s).2 < fuel →
      (unstable_units_count net.matrix (relaxGo net σ fuel c s).1 : Int)
        < net.maximum_relaxation_unstable_units) ∧
    (∀ k, 1 ≤ k → k < (relaxGo net σ fuel c s).2 →
      net.maximum_relaxation_unstable_units
        ≤ (unstable_units_count net.matrix (sweep_iter net σ k c s) : Int)) := by
  intro fuel
  induction fuel with
  | zero =>
    intro c s
    refine ⟨Nat.le_refl 0, rfl, ?_, ?_⟩
    · intro h; omega
    · intro k h1 h2; simp [relaxGo] at h2
  | succ fuel ih =>
    intro c s
    by_cases hstop :
        (unstable_units_count net.matrix (update_state net (σ c) s) : Int)
          < net.maximum_relaxation_unstable_units
    · have hgo : relaxGo net σ (fuel + 1) c s = (update_state net (σ c) s, 1) := by
        simp [relaxGo, hstop]
      rw [hgo]
      refine ⟨by omega, rfl, fun _ => hstop, ?_⟩
      intro k h1 h2
      omega
    · have hgo : relaxGo net σ (fuel + 1) c s
          = ((relaxGo net σ fuel (c + 1) (update_state net (σ c) s)).1,
             (relaxGo net σ fuel (c + 1) (update_state net (σ c) s)).2 + 1) := by
        simp [relaxGo, hstop]
      obtain ⟨ih1, ih2, ih3, ih4⟩ := ih (c + 1) (update_state net (σ c) s)
      rw [hgo]
      refine ⟨by omega, ?_, ?_, ?_⟩
      · simpa [sweep_iter] using ih2
      · intro hk
        exact ih3 (by omega)
      · intro k h1 h2
        cases k with
        | zero => omega
        | succ k =>
          cases k with
          | zero =>
            simpa [sweep_iter] using Int.not_lt.mp hstop
          | succ k =>
            have := ih4 (k + 1) (by omega) (by omega)
            simpa [sweep_iter] using this

/-- C1: `relax_state` performs at most `maximum_relaxation_iterations` sweeps;
its result is the state after exactly `relax_sweeps` sweeps; if it stops
before exhausting the budget then the unstable-unit count of the returned
state is strictly below the tolerance; no earlier sweep met the criterion;
and it stops early exactly when some sweep within the budget meets the
criterion.  The result is always a plain state: non-convergence raises no
error. -/
theorem relax_state_budget_and_early_stop (net : HopfieldNetwork)
    (σ : Nat → List Nat) (c : Nat) (s : Vec) :
    relax_sweeps net σ c s ≤ net.maximum_relaxation_iterations.toNat ∧
    relax_state net σ c s = sweep_iter net σ (relax_sweeps net σ c s) c s ∧
    (relax_sweeps net σ c s < net.maximum_relaxation_iterations.toNat →
      (unstable_units_count net.matrix (relax_state net σ c s) : Int)
        < net.maximum_relaxation_unstable_units) ∧
    (∀ k, 1 ≤ k → k < relax_sweeps net σ c s →
      net.maximum_relaxation_unstable_units
        ≤ (unstable_units_count net.matrix (sweep_iter net σ k c s) : Int)) ∧
    (relax_sweeps net σ c s < net.maximum_relaxation_iterations.toNat ↔
      ∃ k, 1 ≤ k ∧ k < net.maximum_relaxation_iterations.toNat ∧
        (unstable_units_count net.matrix (sweep_iter net σ k c s) : Int)
          < net.maximum_relaxation_unstable_units) := by
  obtain ⟨h1, h2, h3, h4⟩ := relaxGo_spec net σ net.maximum_relaxation_iterations.toNat c s
  unfold relax_state relax_sweeps
  refine ⟨h1, h2, h3, h4, ?_, ?_⟩
  · intro hlt
    have hK1 : 1 ≤ (relaxGo net σ net.maximum_relaxation_iterations.toNat c s).2 := by
      by_contra h0
      have hz : (relaxGo net σ net.maximum_relaxation_iterations.toNat c s).2 = 0 := by
        omega
      rcases hfuel : net.maximum_relaxation_iterations.toNat with _ | fuel
      · rw [hfuel] at hlt
        omega
      · rw [hfuel] at hz
        by_cases hstop :
            (unstable_units_count net.matrix (update_state net (σ c) s) : Int)
              < net.maximum_relaxation_unstable_units <;>
          simp [relaxGo, hstop] at hz
    refine ⟨(relaxGo net σ net.maximum_relaxation_iterations.toNat c s).2, hK1, hlt, ?_⟩
    rw [← h2]
    exact h3 hlt
  · rintro ⟨k, hk1, hkB, hk⟩
    by_contra hKB
    have hKeq : (relaxGo net σ net.maximum_relaxation_iterations.toNat c s).2
        = net.maximum_relaxation_iterations.toNat := by
      omega
    have := h4 k hk1 (by omega)
    omega

/-- Witness for C1: a 2-unit bipolar network with an oscillating state uses
its entire 3-sweep budget (every intermediate sweep fails the criterion),
while a zero-matrix network with tolerance 1 stops after a single sweep with
an unstable count strictly below the tolerance. -/
theorem relax_state_budget_and_early_stop_witness :
    relax_sweeps
        ⟨[[0, 1], [-1, 0]], 2, false, false, NetworkDomain.Bipolar,
          bipolar_activation_function, 3, 1⟩ (fun _ => []) 0 [1, 1] ≤ 3 ∧
    (1 : Int) ≤ (unstable_units_count [[0, 1], [-1, 0]]
        (sweep_iter
          ⟨[[0, 1], [-1, 0]], 2, false, false, NetworkDomain.Bipolar,
            bipolar_activation_function, 3, 1⟩ (fun _ => []) 1 0 [1, 1]) : Int) ∧
    (unstable_units_count [[0, 0], [0, 0]]
        (relax_state
          ⟨[[0, 0], [0, 0]], 2, false, false, NetworkDomain.Bipolar,
            bipolar_activation_function, 5, 1⟩ (fun _ => []) 0 [1, 1]) : Int)
      < (1 : Int) := by
  have h1 := relax_state_budget_and_early_stop
    ⟨[[0, 1], [-1, 0]], 2, false, false, NetworkDomain.Bipolar,
      bipolar_activation_function, 3, 1⟩ (fun _ => []) 0 [1, 1]
  have h2 := relax_state_budget_and_early_stop
    ⟨[[0, 0], [0, 0]], 2, false, false, NetworkDomain.Bipolar,
      bipolar_activation_function, 5, 1⟩ (fun _ => []) 0 [1, 1]
  have e1 : relax_sweeps
      ⟨[[0, 1], [-1, 0]], 2, false, false, NetworkDomain.Bipolar,
        bipolar_activation_function, 3, 1⟩ (fun _ => []) 0 [1, 1] = 3 := by
    with_unfolding_all rfl
  have e2 : relax_sweeps
      ⟨[[0, 0], [0, 0]], 2, false, false, NetworkDomain.Bipolar,
        bipolar_activation_function, 5, 1⟩ (fun _ => []) 0 [1, 1] = 1 := by
    with_unfolding_all rfl
  exact ⟨h1.1, h1.2.2.2.1 1 (by decide) (by rw [e1]; omega),
    h2.2.2.1 (by rw [e2]; decide)⟩

/- ### Sweep structure lemmas -/

theorem sweep_units_length (M : Mat) (act : ActivationFunction) (order : List Nat) :
    ∀ s : Vec, (sweep_units M act order s).length = s.length := by
  unfold sweep_units
  induction order with
  | nil => intro s; rfl
  | cons i rest ih =>
    intro s
    simpa using ih (s.set i ((act (matVecMul M s)).getD i 0))

theorem foldl_set_length (g : Nat → ℚ) :
    ∀ (order : List Nat) (s : Vec),
    (order.foldl (fun st i => st.set i (g i)) s).length = s.length := by
  intro order
  induction order with
  | nil => intro s; rfl
  | cons a rest ih =>
    intro s
    simpa using ih (s.set a (g a))

theorem foldl_set_getElem?_out (g : Nat → ℚ) :
    ∀ (order : List Nat) (s : Vec) (p : Nat), p ∉ order →
    (order.foldl (fun st i => st.set i (g i)) s)[p]? = s[p]? := by
  intro order
  induction order with
  | nil => intro s p _; rfl
  | cons a rest ih =>
    intro s p hp
    simp only [List.mem_cons, not_or] at hp
    simp only [List.foldl_cons]
    rw [ih _ p hp.2, List.getElem?_set_ne (fun h => hp.1 h.symm)]

theorem foldl_set_getElem?_mem (g : Nat → ℚ) :
    ∀ (order : List Nat) (s : Vec) (p : Nat), p < s.length → p ∈ order →
    (order.foldl (fun st i => st.set i (g i)) s)[p]? = some (g p) := by
  intro order
  induction order with
  | nil => intro s p _ h; simp at h
  | cons a rest ih =>
    intro s p hlt hmem
    simp only [List.foldl_cons]
    by_cases hrest : p ∈ rest
    · exact ih _ p (by simpa using hlt) hrest
    · have hpa : p = a := by
        rcases List.mem_cons.mp hmem with h | h
        · exact h
        · exact absurd h hrest
      subst hpa
      rw [foldl_set_getElem?_out g rest _ p hrest]
      simp [List.getElem?_set_self, hlt]

/-- If the activation of `W * state` is the same constant vector for every
working state (as with a zero weight matrix), a sweep that visits every unit
of `0..n` produces exactly that constant vector. -/
theorem sweep_units_const (M : Mat) (act : ActivationFunction) (n : Nat) (c : ℚ)
    (hact : ∀ st : Vec, act (matVecMul M st) = List.replicate n c)
    (order : List Nat) (hperm : List.Perm order (List.range n))
    (s : Vec) (hs : s.length = n) :
    sweep_units M act order s = List.replicate n c := by
  have hfun : (fun (st : Vec) (i : Nat) => st.set i ((act (matVecMul M st)).getD i 0))
      = fun (st : Vec) (i : Nat) => st.set i ((List.replicate n c).getD i 0) := by
    funext st i
    rw [hact st]
  unfold sweep_units
  rw [hfun]
  apply List.ext_getElem?
  intro p
  by_cases hp : p < n
  · have hmem : p ∈ order := hperm.mem_iff.mpr (List.mem_range.mpr hp)
    rw [foldl_set_getElem?_mem _ order s p (by omega) hmem]
    rw [List.getElem?_eq_getElem (by simpa using hp)]
    simp [List.getD, hp]
  · have h1 : (order.foldl
        (fun (st : Vec) (i : Nat) => st.set i ((List.replicate n c).getD i 0)) s)[p]?
        = none :=
      List.getElem?_eq_none (by rw [foldl_set_length]; omega)
    have h2 : (List.replicate n c)[p]? = none :=
      List.getElem?_eq_none (by simp; omega)
    rw [h1, h2]

/- ### Zero-matrix facts -/

def zeroMatrix (n : Nat) : Mat := List.replicate n (List.replicate n 0)

theorem dotProd_zero_left (v : Vec) : ∀ n, dotProd (List.replicate n 0) v = 0 := by
  induction v with
  | nil => intro n; cases n <;> simp [dotProd]
  | cons b v ih =>
    intro n
    cases n with
    | zero => simp [dotProd]
    | succ n =>
      have := ih n
      simp only [List.replicate_succ, dotProd, List.zipWith_cons_cons, List.sum_cons] at this ⊢
      rw [this]
      ring

theorem matVecMul_zeroMatrix (n : Nat) (v : Vec) :
    matVecMul (zeroMatrix n) v = List.replicate n 0 := by
  unfold matVecMul zeroMatrix
  rw [List.map_replicate, dotProd_zero_left v n]

theorem zipWith_mul_zero_left (v : Vec) : ∀ n, (List.zipWith (· * ·) (List.replicate n (0:ℚ)) v).sum = 0 := by
  induction v with
  | nil => intro n; cases n <;> simp
  | cons b v ih =>
    intro n
    cases n with
    | zero => simp
    | succ n =>
      have := ih n
      simp only [List.replicate_succ, List.zipWith_cons_cons, List.sum_cons, this]
      ring

theorem state_energy_zeroMatrix (n : Nat) (v : Vec) :
    state_energy_function (zeroMatrix n) v = 0 := by
  unfold state_energy_function
  rw [matVecMul_zeroMatrix, zipWith_mul_zero_left v n]
  ring

theorem binary_activation_zero (n : Nat) :
    binary_activation_function (List.replicate n 0) = List.replicate n 0 := by
  unfold binary_activation_function
  rw [List.map_replicate]
  simp

theorem bipolar_activation_zero (n : Nat) :
    bipolar_activation_function (List.replicate n 0) = List.replicate n (-1) := by
  unfold bipolar_activation_function
  rw [List.map_replicate]
  simp

/-- With a zero weight matrix, one `update_state` sweep sends every state to
the constant activation image of the zero vector. -/
theorem update_state_zeroMatrix (net : HopfieldNetwork) (c : ℚ)
    (hM : net.matrix = zeroMatrix net.dimension)
    (hact : net.activation_fn (List.replicate net.dimension 0)
      = List.replicate net.dimension c)
    (t : List Nat) (s : Vec) (hs : s.length = net.dimension) :
    update_state net t s = List.replicate net.dimension c := by
  unfold update_state
  apply sweep_units_const _ _ net.dimension c _ _ (fyShuffle_perm _ t) s hs
  intro st
  rw [hM, matVecMul_zeroMatrix, hact]

/-- C8: with a zero weight matrix the state energy vanishes for every state,
and under the Binary or Bipolar activation a sweep leaves the state unchanged
once one activation pass has been applied: any further sweep fixes the result
of the first sweep. -/
theorem zero_matrix_energy_and_sweep_fixed (net : HopfieldNetwork) (v s : Vec)
    (t1 t2 : List Nat)
    (hM : net.matrix = zeroMatrix net.dimension)
    (hact : net.activation_fn = binary_activation_function ∨
      net.activation_fn = bipolar_activation_function)
    (hs : s.length = net.dimension) :
    state_energy_function net.matrix v = 0 ∧
    update_state net t2 (update_state net t1 s) = update_state net t1 s := by
  constructor
  · rw [hM]
    exact state_energy_zeroMatrix net.dimension v
  · rcases hact with h | h
    · have h1 : update_state net t1 s = List.replicate net.dimension 0 :=
        update_state_zeroMatrix net 0 hM (by rw [h, binary_activation_zero]) t1 s hs
      have h2 : update_state net t2 (List.replicate net.dimension 0)
          = List.replicate net.dimension 0 :=
        update_state_zeroMatrix net 0 hM (by rw [h, binary_activation_zero]) t2 _
          (by simp)
      rw [h1, h2]
    · have h1 : update_state net t1 s = List.replicate net.dimension (-1) :=
        update_state_zeroMatrix net (-1) hM (by rw [h, bipolar_activation_zero]) t1 s hs
      have h2 : update_state net t2 (List.replicate net.dimension (-1))
          = List.replicate net.dimension (-1) :=
        update_state_zeroMatrix net (-1) hM (by rw [h, bipolar_activation_zero]) t2 _
          (by simp)
      rw [h1, h2]

/-- Witness for C8 on a 3-unit binary network with a nonconstant start state. -/
theorem zero_matrix_energy_and_sweep_fixed_witness :
    state_energy_function (zeroMatrix 3) [1, 0, 1] = 0 ∧
    update_state
        ⟨zeroMatrix 3, 3, true, true, NetworkDomain.Binary,
          binary_activation_function, 100, 0⟩ [1]
        (update_state
          ⟨zeroMatrix 3, 3, true, true, NetworkDomain.Binary,
            binary_activation_function, 100, 0⟩ [0, 1] [1, 0, 1])
      = update_state
          ⟨zeroMatrix 3, 3, true, true, NetworkDomain.Binary,
            binary_activation_function, 100, 0⟩ [0, 1] [1, 0, 1] :=
  zero_matrix_energy_and_sweep_fixed
    ⟨zeroMatrix 3, 3, true, true, NetworkDomain.Binary,
      binary_activation_function, 100, 0⟩ [1, 0, 1] [1, 0, 1] [0, 1] [1]
    rfl (Or.inl rfl) (by decide)

/- ### C2: the zero-matrix, tolerance-0 example -/

/-- When the tolerance is non-positive the early-exit test
`unstable_units < maximum_relaxation_unstable_units` can never fire
(the count is a non-negative integer), so the loop always consumes its
entire iteration budget. -/
theorem relaxGo_max_nonpos (net : HopfieldNetwork) (σ : Nat → List Nat)
    (hmax : net.maximum_relaxation_unstable_units ≤ 0) :
    ∀ (fuel c : Nat) (s : Vec),
    relaxGo net σ fuel c s = (sweep_iter net σ fuel c s, fuel) := by
  intro fuel
  induction fuel with
  | zero => intro c s; rfl
  | succ fuel ih =>
    intro c s
    have hno : ¬ (unstable_units_count net.matrix (update_state net (σ c) s) : Int)
        < net.maximum_relaxation_unstable_units := by
      have : (0 : Int) ≤ (unstable_units_count net.matrix (update_state net (σ c) s) : Int) :=
        Int.ofNat_nonneg _
      omega
    simp only [relaxGo, hno, if_false, ih (c + 1) (update_state net (σ c) s)]
    rfl

/-- Once some state v of the right length is a common value of every sweep
(as with a zero matrix), iterating at least one sweep always lands on v. -/
theorem sweep_iter_fixed (net : HopfieldNetwork) (σ : Nat → List Nat) (v : Vec)
    (hupd : ∀ (t : List Nat) (s : Vec), s.length = net.dimension → update_state net t s = v)
    (hv : v.length = net.dimension) :
    ∀ (k c : Nat) (s : Vec), s.length = net.dimension → 1 ≤ k →
    sweep_iter net σ k c s = v := by
  intro k
  induction k with
  | zero => intro c s _ h; omega
  | succ k ih =>
    intro c s hs _
    cases k with
    | zero =>
      simp only [sweep_iter]
      exact hupd (σ c) s hs
    | succ k =>
      have hstep : sweep_iter net σ (k + 1 + 1) c s
          = sweep_iter net σ (k + 1) (c + 1) (update_state net (σ c) s) := rfl
      rw [hstep, hupd (σ c) s hs]
      exact ih (c + 1) v hv (by omega)

/-- The network of the C2 example: dimension 4, Bipolar domain, zero weight
matrix, default iteration budget 100, tolerance 0. -/
def exampleNet4 : HopfieldNetwork :=
  ⟨zeroMatrix 4, 4, true, true, NetworkDomain.Bipolar,
    bipolar_activation_function, 100, 0⟩

/-- Counterexample to C2: on this network `relax_state` does not stop within
1 sweep; with tolerance 0 the strict test `count < 0` never fires, so all 100
budgeted sweeps run. -/
theorem exampleNet4_not_one_sweep :
    relax_sweeps exampleNet4 (fun _ => []) 0 [1, 1, 1, 1] = 100 ∧
    ¬ relax_sweeps exampleNet4 (fun _ => []) 0 [1, 1, 1, 1] ≤ 1 := by
  have h := relaxGo_max_nonpos exampleNet4 (fun _ => []) (by decide) 100 0 [1, 1, 1, 1]
  have hK : relax_sweeps exampleNet4 (fun _ => []) 0 [1, 1, 1, 1] = 100 := by
    unfold relax_sweeps
    rw [show exampleNet4.maximum_relaxation_iterations.toNat = 100 from rfl, h]
  exact ⟨hK, by omega⟩

/-- C2 amended: on the dimension-4 bipolar zero-matrix network with
`max_unstable_units = 0`, `relax_state` does return a state of energy 0 —
the all-(-1) fixed point reached after the first sweep — but it consumes the
whole 100-iteration budget rather than stopping within 1 sweep, because the
early-exit test requires strictly fewer than 0 unstable units. -/
theorem exampleNet4_relax_energy_zero (σ : Nat → List Nat) (c : Nat) (s : Vec)
    (hs : s.length = 4) :
    relax_state exampleNet4 σ c s = List.replicate 4 (-1) ∧
    state_energy_function exampleNet4.matrix (relax_state exampleNet4 σ c s) = 0 ∧
    relax_sweeps exampleNet4 σ c s = 100 := by
  have hupd : ∀ (t : List Nat) (s' : Vec), s'.length = exampleNet4.dimension →
      update_state exampleNet4 t s' = List.replicate 4 (-1) := by
    intro t s' hs'
    exact update_state_zeroMatrix exampleNet4 (-1) rfl (bipolar_activation_zero 4) t s' hs'
  have hgo := relaxGo_max_nonpos exampleNet4 σ (by decide) 100 c s
  have hiter := sweep_iter_fixed exampleNet4 σ (List.replicate 4 (-1)) hupd rfl
    100 c s (hs.trans rfl) (by omega)
  have hstate : relax_state exampleNet4 σ c s = List.replicate 4 (-1) := by
    unfold relax_state
    rw [show exampleNet4.maximum_relaxation_iterations.toNat = 100 from rfl, hgo]
    exact hiter
  refine ⟨hstate, ?_, ?_⟩
  · rw [hstate]
    exact state_energy_zeroMatrix 4 _
  · unfold relax_sweeps
    rw [show exampleNet4.maximum_relaxation_iterations.toNat = 100 from rfl, hgo]

/-- Witness for the amended C2 at the concrete all-ones start state. -/
theorem exampleNet4_relax_energy_zero_witness :
    relax_state exampleNet4 (fun _ => [1, 0, 2]) 0 [1, -1, 1, -1]
      = List.replicate 4 (-1) ∧
    state_energy_function exampleNet4.matrix
      (relax_state exampleNet4 (fun _ => [1, 0, 2]) 0 [1, -1, 1, -1]) = 0 ∧
    relax_sweeps exampleNet4 (fun _ => [1, 0, 2]) 0 [1, -1, 1, -1] = 100 :=
  exampleNet4_relax_energy_zero (fun _ => [1, 0, 2]) 0 [1, -1, 1, -1] (by decide)

/- ### C9: update_state preserves length and domain membership -/

theorem sweep_units_closure (M : Mat) (act : ActivationFunction) (P : ℚ → Prop)
    (hact : ∀ (st : Vec) (x : ℚ), x ∈ act (matVecMul M st) → P x)
    (hlen : ∀ st : Vec, (act (matVecMul M st)).length = M.length) :
    ∀ (order : List Nat), (∀ i ∈ order, i < M.length) →
    ∀ s : Vec, (∀ x ∈ s, P x) →
    ∀ x ∈ sweep_units M act order s, P x := by
  intro order
  induction order with
  | nil => intro _ s hs x hx; exact hs x hx
  | cons i rest ih =>
    intro hbound s hs x hx
    have hi : i < M.length := hbound i (List.mem_cons_self i rest)
    have hv : P ((act (matVecMul M s)).getD i 0) := by
      have hilen : i < (act (matVecMul M s)).length := by rw [hlen s]; exact hi
      rw [List.getD_eq_getElem _ _ hilen]
      exact hact s _ (List.getElem_mem hilen)
    have hstep : ∀ y ∈ s.set i ((act (matVecMul M s)).getD i 0), P y := by
      intro y hy
      rcases List.mem_or_eq_of_mem_set hy with h | h
      · exact hs y h
      · rw [h]; exact hv
    exact ih (fun j hj => hbound j (List.mem_cons_of_mem i hj)) _ hstep x hx

/-- C9: `update_state` returns a state of the network dimension, and it keeps
Binary states inside 0/1 and Bipolar states inside -1/1: every
component of the result is either carried over from the input or produced by
the domain's activation function. -/
theorem update_state_length_and_domain (net : HopfieldNetwork) (t : List Nat) (s : Vec)
    (hM : net.matrix.length = net.dimension) (hs : s.length = net.dimension) :
    (update_state net t s).length = net.dimension ∧
    (net.activation_fn = binary_activation_function →
      (∀ x ∈ s, x = 0 ∨ x = 1) → ∀ x ∈ update_state net t s, x = 0 ∨ x = 1) ∧
    (net.activation_fn = bipolar_activation_function →
      (∀ x ∈ s, x = -1 ∨ x = 1) → ∀ x ∈ update_state net t s, x = -1 ∨ x = 1) := by
  have horder : ∀ i ∈ fyShuffle (List.range net.dimension) t, i < net.matrix.length := by
    intro i hi
    rw [hM]
    exact fyShuffle_range_mem net.dimension t i hi
  refine ⟨?_, ?_, ?_⟩
  · unfold update_state
    rw [sweep_units_length, hs]
  · intro hact hdom
    apply sweep_units_closure net.matrix net.activation_fn (fun x => x = 0 ∨ x = 1)
      ?_ ?_ _ horder s hdom
    · intro st x hx
      rw [hact] at hx
      unfold binary_activation_function at hx
      obtain ⟨a, _, ha⟩ := List.mem_map.mp hx
      by_cases hle : a ≤ 0 <;> simp [hle] at ha <;> [exact Or.inl ha.symm;
        exact Or.inr ha.symm]
    · intro st
      rw [hact]
      unfold binary_activation_function
      rw [List.length_map, matVecMul_length]
  · intro hact hdom
    apply sweep_units_closure net.matrix net.activation_fn (fun x => x = -1 ∨ x = 1)
      ?_ ?_ _ horder s hdom
    · intro st x hx
      rw [hact] at hx
      unfold bipolar_activation_function at hx
      obtain ⟨a, _, ha⟩ := List.mem_map.mp hx
      by_cases hle : a ≤ 0 <;> simp [hle] at ha <;> [exact Or.inl ha.symm;
        exact Or.inr ha.symm]
    · intro st
      rw [hact]
      unfold bipolar_activation_function
      rw [List.length_map, matVecMul_length]

/-- Witness for C9 on a concrete 2-unit binary network. -/
theorem update_state_length_and_domain_witness :
    (update_state
        ⟨[[0, 1], [1, 0]], 2, true, true, NetworkDomain.Binary,
          binary_activation_function, 100, 0⟩ [1] [1, 0]).length = 2 ∧
    ∀ x ∈ update_state
        ⟨[[0, 1], [1, 0]], 2, true, true, NetworkDomain.Binary,
          binary_activation_function, 100, 0⟩ [1] [1, 0], x = 0 ∨ x = 1 := by
  have h := update_state_length_and_domain
    ⟨[[0, 1], [1, 0]], 2, true, true, NetworkDomain.Binary,
      binary_activation_function, 100, 0⟩ [1] [1, 0] (by decide) (by decide)
  refine ⟨h.1, h.2.1 rfl ?_⟩
  intro x hx
  simp only [List.mem_cons, List.not_mem_nil, or_false] at hx
  rcases hx with h1 | h1
  · exact Or.inr h1
  · exact Or.inl h1

/- ### Concurrent batch relaxation (`concurrent_relax_state_collection`) -/

/-- The relaxation loop inside `concurrent_relax_thread_fn` for one state.
Unlike `update_state`, the worker reuses and reshuffles its single
`unit_indices` buffer in place, so the current buffer is threaded through.
Returns the relaxed state, the buffer, and the advanced tape counter. -/
def threadRelaxGo (M : Mat) (act : ActivationFunction) (maxUnstable : Int)
    (σ : Nat → List Nat) : Nat → Nat → List Nat → Vec → Vec × List Nat × Nat
  | 0, c, idx, s => (s, idx, c)
  | fuel + 1, c, idx, s =>
    let idx2 := fyShuffle idx (σ c)
    let s2 := sweep_units M act idx2 s
    if (unstable_units_count M s2 : Int) < maxUnstable then (s2, idx2, c + 1)
    else threadRelaxGo M act maxUnstable σ fuel (c + 1) idx2 s2

/-- `concurrent_relax_thread_fn`: relax each tagged state of the worker's
share in order, sending back (original index, relaxed state) pairs. -/
def concurrent_relax_thread_fn (M : Mat) (act : ActivationFunction)
    (maxIter maxUnstable : Int) (σ : Nat → List Nat) :
    Nat → List Nat → List (Nat × Vec) → List (Nat × Vec)
  | _, _, [] => []
  | c, idx, p :: rest =>
    let r := threadRelaxGo M act maxUnstable σ maxIter.toNat c idx p.2
    (p.1, r.1) :: concurrent_relax_thread_fn M act maxIter maxUnstable σ r.2.2 r.2.1 rest

/-- The round-robin partition loop: enumerate the batch, pushing the pair at
input index k onto bucket k mod worker_count. -/
def partition_round_robin (w : Nat) (pairs : List (Nat × Vec)) :
    List (List (Nat × Vec)) :=
  pairs.foldl
    (fun buckets p => buckets.set (p.1 % w) (buckets.getD (p.1 % w) [] ++ [p]))
    (List.replicate w [])

/-- The same partition loop with its two panic sources made explicit:
`index % threads` aborts when `threads = 0` (integer remainder by zero), and
the bucket indexing aborts when out of bounds. -/
def partition_round_robin_checked (w : Nat) (pairs : List (Nat × Vec)) :
    Option (List (List (Nat × Vec))) :=
  pairs.foldl
    (fun acc p => acc.bind (fun buckets =>
      if w = 0 then none
      else if p.1 % w < buckets.length then
        some (buckets.set (p.1 % w) (buckets.getD (p.1 % w) [] ++ [p]))
      else none))
    (some (List.replicate w []))

theorem partition_checked_none (w : Nat) :
    ∀ (pairs : List (Nat × Vec)),
    pairs.foldl (fun (acc : Option (List (List (Nat × Vec)))) p => acc.bind (fun buckets =>
      if w = 0 then none
      else if p.1 % w < buckets.length then
        some (buckets.set (p.1 % w) (buckets.getD (p.1 % w) [] ++ [p]))
      else none)) none = none := by
  intro pairs
  induction pairs with
  | nil => rfl
  | cons p rest ih => simpa using ih

/-- C10: with `worker_count = 0` and a non-empty batch the partition loop
panics at the remainder by zero; with any positive worker count the bucket
index `k mod w` is always in bounds, so the checked loop agrees with the
total one and cannot panic. -/
theorem partition_zero_panics_pos_total (pairs : List (Nat × Vec)) :
    (pairs ≠ [] → partition_round_robin_checked 0 pairs = none) ∧
    (∀ w, 0 < w →
      partition_round_robin_checked w pairs = some (partition_round_robin w pairs)) := by
  constructor
  · intro hne
    cases pairs with
    | nil => exact absurd rfl hne
    | cons p rest =>
      unfold partition_round_robin_checked
      simp only [List.foldl_cons, Option.some_bind, if_pos rfl]
      exact partition_checked_none 0 rest
  · intro w hw
    unfold partition_round_robin_checked partition_round_robin
    have hgen : ∀ (ps : List (Nat × Vec)) (buckets : List (List (Nat × Vec))),
        buckets.length = w →
        ps.foldl (fun (acc : Option (List (List (Nat × Vec)))) p => acc.bind (fun bs =>
          if w = 0 then none
          else if p.1 % w < bs.length then
            some (bs.set (p.1 % w) (bs.getD (p.1 % w) [] ++ [p]))
          else none)) (some buckets)
        = some (ps.foldl
            (fun bs p => bs.set (p.1 % w) (bs.getD (p.1 % w) [] ++ [p])) buckets) := by
      intro ps
      induction ps with
      | nil => intro buckets _; rfl
      | cons p rest ih =>
        intro buckets hlen
        have hmod : p.1 % w < buckets.length := by
          rw [hlen]
          exact Nat.mod_lt _ hw
        have hne : ¬ w = 0 := by omega
        simp only [List.foldl_cons, Option.some_bind]
        rw [if_neg hne, if_pos hmod]
        exact ih _ (by simpa using hlen)
    exact hgen pairs (List.replicate w []) (by simp)

/-- Witness for C10 at a concrete batch and worker counts 0 and 2. -/
theorem partition_zero_panics_pos_total_witness :
    partition_round_robin_checked 0 [(0, [1]), (1, [2])] = none ∧
    partition_round_robin_checked 2 [(0, [1]), (1, [2])]
      = some (partition_round_robin 2 [(0, [1]), (1, [2])]) := by
  have h := partition_zero_panics_pos_total [(0, [1]), (1, [2])]
  exact ⟨h.1 (by decide), h.2 2 (by decide)⟩

/- ### Collection and reordering -/

def pairKeyLe (a b : Nat × Vec) : Prop := a.1 ≤ b.1

def pairKeyLt (a b : Nat × Vec) : Prop := a.1 < b.1

instance : DecidableRel pairKeyLe := fun a b => inferInstanceAs (Decidable (a.1 ≤ b.1))

instance : IsTotal (Nat × Vec) pairKeyLe := ⟨fun a b => Nat.le_total a.1 b.1⟩

instance : IsTrans (Nat × Vec) pairKeyLe := ⟨fun _ _ _ h1 h2 => Nat.le_trans h1 h2⟩

instance : IsAntisymm (Nat × Vec) pairKeyLt :=
  ⟨fun a _ h1 h2 => absurd (Nat.lt_trans h1 h2) (Nat.lt_irrefl a.1)⟩

/-- The share of worker j: enumerate the batch, partition round-robin, run the
worker body on bucket j with its own tape family `τ j` (modelling the RNG
seeded from the engine's stream) starting from the ordered index buffer. -/
def thread_results (net : HopfieldNetwork) (w : Nat) (states : List Vec)
    (τ : Nat → Nat → List Nat) (j : Nat) : List (Nat × Vec) :=
  concurrent_relax_thread_fn net.matrix net.activation_fn
    net.maximum_relaxation_iterations net.maximum_relaxation_unstable_units
    (τ j) 0 (List.range net.dimension)
    ((partition_round_robin w states.enum).getD j [])

/-- Everything sent over the result channel: one pair per input state. -/
def all_thread_results (net : HopfieldNetwork) (w : Nat) (states : List Vec)
    (τ : Nat → Nat → List Nat) : List (Nat × Vec) :=
  (List.range w).flatMap (thread_results net w states τ)

/-- The collector: sort the received pairs by original index and drop the
tags (`sort_unstable_by_key` followed by mapping to the state). -/
def collect_in_order (received : List (Nat × Vec)) : List Vec :=
  (received.insertionSort pairKeyLe).map Prod.snd

/- ### Partition and key lemmas -/

theorem partition_getD (w : Nat) (j : Nat) (hw : 0 < w) (hj : j < w) :
    ∀ (pairs : List (Nat × Vec)) (buckets : List (List (Nat × Vec))),
    buckets.length = w →
    (pairs.foldl
      (fun bs p => bs.set (p.1 % w) (bs.getD (p.1 % w) [] ++ [p])) buckets).getD j []
    = buckets.getD j [] ++ pairs.filter (fun p => p.1 % w == j) := by
  intro pairs
  induction pairs with
  | nil => intro buckets _; simp
  | cons p rest ih =>
    intro buckets hlen
    have hmod : p.1 % w < buckets.length := by rw [hlen]; exact Nat.mod_lt _ hw
    have hlen2 : (buckets.set (p.1 % w) (buckets.getD (p.1 % w) [] ++ [p])).length = w := by
      rw [List.length_set]; exact hlen
    simp only [List.foldl_cons, List.filter_cons]
    rw [ih _ hlen2]
    by_cases heq : p.1 % w = j
    · have : (buckets.set (p.1 % w) (buckets.getD (p.1 % w) [] ++ [p])).getD j []
          = buckets.getD j [] ++ [p] := by
        subst heq
        rw [List.getD_eq_getElem _ _ (by rw [List.length_set]; exact hmod)]
        rw [List.getElem_set_self]
      rw [this, if_pos (by simpa using heq)]
      simp
    · have : (buckets.set (p.1 % w) (buckets.getD (p.1 % w) [] ++ [p])).getD j []
          = buckets.getD j [] := by
        simp only [List.getD, List.get?_eq_getElem?]
        rw [List.getElem?_set_ne heq]
      rw [this, if_neg (by simpa using heq)]

/-- The keys sent back by a worker are exactly the keys of its share,
in order. -/
theorem thread_fn_map_fst (M : Mat) (act : ActivationFunction)
    (maxIter maxUnstable : Int) (σ : Nat → List Nat) :
    ∀ (pairs : List (Nat × Vec)) (c : Nat) (idx : List Nat),
    (concurrent_relax_thread_fn M act maxIter maxUnstable σ c idx pairs).map Prod.fst
      = pairs.map Prod.fst := by
  intro pairs
  induction pairs with
  | nil => intro c idx; rfl
  | cons p rest ih =>
    intro c idx
    simp only [concurrent_relax_thread_fn, List.map_cons]
    rw [ih]

theorem filter_fst_map (q : Nat → Bool) :
    ∀ (l : List (Nat × Vec)),
    (l.filter (fun p => q p.1)).map Prod.fst = (l.map Prod.fst).filter q := by
  intro l
  induction l with
  | nil => rfl
  | cons p rest ih =>
    simp only [List.filter_cons, List.map_cons, List.filter_cons]
    by_cases hq : q p.1
    · rw [if_pos hq, if_pos hq, List.map_cons, ih]
    · rw [if_neg hq, if_neg hq, ih]

/-- Splitting a list of naturals into residue classes mod w and
concatenating the classes in residue order is a permutation of the list. -/
theorem flatMap_filter_mod_perm (w : Nat) (hw : 0 < w) :
    ∀ (K : List Nat),
    List.Perm ((List.range w).flatMap (fun j => K.filter (fun k => k % w == j))) K := by
  have hinsert : ∀ (k : Nat) (K : List Nat) (J : List Nat), J.Nodup → k % w ∈ J →
      List.Perm (J.flatMap (fun j => (k :: K).filter (fun x => x % w == j)))
        (k :: J.flatMap (fun j => K.filter (fun x => x % w == j))) := by
    intro k K J
    induction J with
    | nil => intro _ h; simp at h
    | cons j J ih =>
      intro hnodup hmem
      have hnodup2 := List.nodup_cons.mp hnodup
      by_cases hj : k % w = j
      · have hhead : (k :: K).filter (fun x => x % w == j)
            = k :: K.filter (fun x => x % w == j) := by
          rw [List.filter_cons, if_pos (by simpa using hj)]
        have htail : J.flatMap (fun j2 => (k :: K).filter (fun x => x % w == j2))
            = J.flatMap (fun j2 => K.filter (fun x => x % w == j2)) := by
          apply List.flatMap_congr
          intro j2 hj2
          rw [List.filter_cons, if_neg]
          simp only [beq_iff_eq]
          rw [hj]
          intro hcontra
          exact hnodup2.1 (hcontra ▸ hj2)
        rw [List.flatMap_cons, List.flatMap_cons, hhead, htail]
        exact List.Perm.refl _
      · have hhead : (k :: K).filter (fun x => x % w == j)
            = K.filter (fun x => x % w == j) := by
          rw [List.filter_cons, if_neg (by simpa using hj)]
        have hmem2 : k % w ∈ J := by
          rcases List.mem_cons.mp hmem with h | h
          · exact absurd h hj
          · exact h
        rw [List.flatMap_cons, List.flatMap_cons, hhead]
        refine List.Perm.trans (List.Perm.append_left _ (ih hnodup2.2 hmem2)) ?_
        exact List.perm_middle
  intro K
  induction K with
  | nil => simp
  | cons k K ih =>
    refine List.Perm.trans (hinsert k K (List.range w) (List.nodup_range w) ?_) ?_
    · exact List.mem_range.mpr (Nat.mod_lt _ hw)
    · exact List.Perm.cons k ih

/- ### Lookup lemmas -/

theorem lookup_cons_self (p : Nat × Vec) (rest : List (Nat × Vec)) :
    ((p :: rest).lookup p.1) = some p.2 := by
  cases p with
  | mk a b => simp [List.lookup_cons]

theorem lookup_cons_ne (p : Nat × Vec) (rest : List (Nat × Vec)) (k : Nat)
    (h : k ≠ p.1) : ((p :: rest).lookup k) = rest.lookup k := by
  cases p with
  | mk a b =>
    have h2 : k ≠ a := h
    simp [List.lookup_cons, beq_false_of_ne h2]

theorem lookup_none_of_not_mem (k : Nat) :
    ∀ (l : List (Nat × Vec)), k ∉ l.map Prod.fst → l.lookup k = none := by
  intro l
  induction l with
  | nil => intro _; rfl
  | cons p rest ih =>
    intro hk
    simp only [List.map_cons, List.mem_cons, not_or] at hk
    rw [lookup_cons_ne p rest k hk.1]
    exact ih hk.2

theorem lookup_append_right (k : Nat) :
    ∀ (l1 l2 : List (Nat × Vec)), k ∉ l1.map Prod.fst →
    (l1 ++ l2).lookup k = l2.lookup k := by
  intro l1
  induction l1 with
  | nil => intro l2 _; rfl
  | cons p rest ih =>
    intro l2 hk
    simp only [List.map_cons, List.mem_cons, not_or] at hk
    rw [List.cons_append, lookup_cons_ne p (rest ++ l2) k hk.1]
    exact ih l2 hk.2

theorem lookup_append_left (k : Nat) :
    ∀ (l1 l2 : List (Nat × Vec)), k ∉ l2.map Prod.fst →
    (l1 ++ l2).lookup k = l1.lookup k := by
  intro l1
  induction l1 with
  | nil =>
    intro l2 hk
    rw [List.nil_append]
    exact (lookup_none_of_not_mem k l2 hk).trans rfl
  | cons p rest ih =>
    intro l2 hk
    rw [List.cons_append]
    by_cases hp : k = p.1
    · rw [hp, lookup_cons_self p (rest ++ l2), lookup_cons_self p rest]
    · rw [lookup_cons_ne p (rest ++ l2) k hp, lookup_cons_ne p rest k hp]
      exact ih l2 hk

/-- A list of pairs with distinct keys is recovered from its keys by lookup. -/
theorem eq_map_fst_lookup :
    ∀ (l : List (Nat × Vec)), (l.map Prod.fst).Nodup →
    l = (l.map Prod.fst).map (fun k => (k, (l.lookup k).getD [])) := by
  intro l
  induction l with
  | nil => intro _; rfl
  | cons p rest ih =>
    intro hnd
    simp only [List.map_cons, List.nodup_cons] at hnd
    have hhead : ((p :: rest).lookup p.1).getD [] = p.2 := by
      rw [lookup_cons_self p rest]
      rfl
    have htail : (rest.map Prod.fst).map
        (fun k => (k, ((p :: rest).lookup k).getD []))
        = (rest.map Prod.fst).map (fun k => (k, (rest.lookup k).getD [])) := by
      apply List.map_congr_left
      intro k hk
      have hne : ¬ k = p.1 := fun h => hnd.1 (h ▸ hk)
      rw [lookup_cons_ne p rest k hne]
    simp only [List.map_cons]
    rw [htail, ← ih hnd.2, hhead]

/-- Looking up key k in the concatenation of per-worker outputs finds the
entry of the one worker that can hold key k. -/
theorem lookup_flatMap (TRf : Nat → List (Nat × Vec)) (k : Nat) :
    ∀ (J : List Nat) (j0 : Nat), J.Nodup → j0 ∈ J →
    (∀ j ∈ J, j ≠ j0 → k ∉ (TRf j).map Prod.fst) →
    (J.flatMap TRf).lookup k = (TRf j0).lookup k := by
  intro J
  induction J with
  | nil => intro j0 _ h _; simp at h
  | cons j J ih =>
    intro j0 hnd hmem hout
    have hnd2 := List.nodup_cons.mp hnd
    rw [List.flatMap_cons]
    by_cases hj : j = j0
    · subst hj
      apply lookup_append_left
      intro hk
      rw [List.map_flatMap] at hk
      obtain ⟨j2, hj2, hkj2⟩ := List.mem_flatMap.mp hk
      exact hout j2 (List.mem_cons_of_mem j hj2) (fun h => hnd2.1 (h ▸ hj2)) hkj2
    · rw [lookup_append_right k _ _
        (hout j (List.mem_cons_self j J) hj)]
      refine ih j0 hnd2.2 ?_ ?_
      · rcases List.mem_cons.mp hmem with h | h
        · exact absurd h.symm hj
        · exact h
      · intro j2 hj2 hne
        exact hout j2 (List.mem_cons_of_mem j hj2) hne

/- ### Uniqueness of the sorted arrangement under distinct keys -/

theorem sorted_lt_of_le_nodup (l : List (Nat × Vec)) (hs : List.Sorted pairKeyLe l)
    (hnd : (l.map Prod.fst).Nodup) : List.Sorted pairKeyLt l := by
  have hne : List.Pairwise (fun a b : Nat × Vec => a.1 ≠ b.1) l :=
    List.pairwise_map.mp hnd
  have hcomb := List.Pairwise.and hs hne
  exact hcomb.imp (fun h => Nat.lt_of_le_of_ne h.1 h.2)

theorem eq_of_perm_sorted_nodup_keys (l1 l2 : List (Nat × Vec))
    (hp : List.Perm l1 l2) (h1 : List.Sorted pairKeyLe l1)
    (h2 : List.Sorted pairKeyLe l2) (hnd : (l1.map Prod.fst).Nodup) : l1 = l2 := by
  have hnd2 : (l2.map Prod.fst).Nodup := (hp.map Prod.fst).nodup hnd
  exact List.eq_of_perm_of_sorted hp (sorted_lt_of_le_nodup l1 h1 hnd)
    (sorted_lt_of_le_nodup l2 h2 hnd2)

/-- C3: for every batch, every positive worker count, every family of worker
tapes, and every arrival order of the channel messages, the batch is
partitioned round-robin (input index k goes to worker k mod w), and the
collector returns exactly one state per input, sorted back into input order:
the k-th output is the state that worker k mod w computed for input k. -/
theorem concurrent_collection_ordered (net : HopfieldNetwork) (states : List Vec)
    (w : Nat) (τ : Nat → Nat → List Nat) (received : List (Nat × Vec))
    (hw : 0 < w)
    (hrec : List.Perm received (all_thread_results net w states τ)) :
    (∀ j, j < w → (partition_round_robin w states.enum).getD j []
        = states.enum.filter (fun p => p.1 % w == j)) ∧
    collect_in_order received
      = (List.range states.length).map
          (fun k => ((thread_results net w states τ (k % w)).lookup k).getD []) ∧
    (collect_in_order received).length = states.length := by
  have hreplj : ∀ j : Nat, ((List.replicate w ([] : List (Nat × Vec))).getD j []) = [] := by
    intro j
    by_cases hj : j < w
    · rw [List.getD_eq_getElem _ _ (by simpa using hj)]
      exact List.getElem_replicate ..
    · simp only [List.getD, List.get?_eq_getElem?]
      rw [List.getElem?_eq_none (by simpa using hj)]
      rfl
  have hbucket : ∀ j, j < w → (partition_round_robin w states.enum).getD j []
      = states.enum.filter (fun p => p.1 % w == j) := by
    intro j hj
    unfold partition_round_robin
    rw [partition_getD w j hw hj states.enum (List.replicate w []) (by simp), hreplj j,
      List.nil_append]
  have hTRkeys : ∀ j, j < w → (thread_results net w states τ j).map Prod.fst
      = (List.range states.length).filter (fun k => k % w == j) := by
    intro j hj
    unfold thread_results
    rw [thread_fn_map_fst, hbucket j hj, filter_fst_map (fun k => k % w == j),
      List.enum_map_fst]
  have hres : ∀ j, j < w → ∀ k, k ∈ (thread_results net w states τ j).map Prod.fst →
      k % w = j := by
    intro j hj k hk
    rw [hTRkeys j hj] at hk
    have := List.of_mem_filter hk
    simpa using this
  have hallkeys : List.Perm ((all_thread_results net w states τ).map Prod.fst)
      (List.range states.length) := by
    unfold all_thread_results
    rw [List.map_flatMap]
    have hcongr : (List.range w).flatMap
        (fun j => (thread_results net w states τ j).map Prod.fst)
        = (List.range w).flatMap
            (fun j => (List.range states.length).filter (fun k => k % w == j)) := by
      apply List.flatMap_congr
      intro j hj
      exact hTRkeys j (List.mem_range.mp hj)
    rw [hcongr]
    exact flatMap_filter_mod_perm w hw (List.range states.length)
  have hnodup : ((all_thread_results net w states τ).map Prod.fst).Nodup :=
    hallkeys.symm.nodup (List.nodup_range states.length)
  have hloc : ∀ k, k < states.length →
      (all_thread_results net w states τ).lookup k
        = (thread_results net w states τ (k % w)).lookup k := by
    intro k _
    unfold all_thread_results
    apply lookup_flatMap _ k (List.range w) (k % w) (List.nodup_range w)
      (List.mem_range.mpr (Nat.mod_lt _ hw))
    intro j hj hne hmem
    exact hne (hres j (List.mem_range.mp hj) k hmem).symm
  have hident := eq_map_fst_lookup (all_thread_results net w states τ) hnodup
  have hcanon : List.Perm (all_thread_results net w states τ)
      ((List.range states.length).map
        (fun k => (k, ((thread_results net w states τ (k % w)).lookup k).getD []))) := by
    have hmapcong : ((all_thread_results net w states τ).map Prod.fst).map
        (fun k => (k, ((all_thread_results net w states τ).lookup k).getD []))
        = ((all_thread_results net w states τ).map Prod.fst).map
            (fun k => (k, ((thread_results net w states τ (k % w)).lookup k).getD [])) := by
      apply List.map_congr_left
      intro k hk
      have hklt : k < states.length := by
        have := hallkeys.mem_iff.mp hk
        simpa using this
      rw [hloc k hklt]
    rw [hident, hmapcong]
    exact hallkeys.map
      (fun k => (k, ((thread_results net w states τ (k % w)).lookup k).getD []))
  have hsorted_canon : List.Sorted pairKeyLe
      ((List.range states.length).map
        (fun k => (k, ((thread_results net w states τ (k % w)).lookup k).getD []))) := by
    apply List.pairwise_map.mpr
    exact (List.pairwise_lt_range states.length).imp (fun h => Nat.le_of_lt h)
  have hs1 : List.Sorted pairKeyLe (received.insertionSort pairKeyLe) :=
    List.sorted_insertionSort pairKeyLe received
  have hperm_sort : List.Perm (received.insertionSort pairKeyLe)
      ((List.range states.length).map
        (fun k => (k, ((thread_results net w states τ (k % w)).lookup k).getD []))) :=
    (List.perm_insertionSort pairKeyLe received).trans (hrec.trans hcanon)
  have hnd_sort : ((received.insertionSort pairKeyLe).map Prod.fst).Nodup := by
    have h1 := ((List.perm_insertionSort pairKeyLe received).trans hrec).map Prod.fst
    exact (h1.trans hallkeys).symm.nodup (List.nodup_range states.length)
  have heqsort : received.insertionSort pairKeyLe
      = (List.range states.length).map
          (fun k => (k, ((thread_results net w states τ (k % w)).lookup k).getD [])) :=
    eq_of_perm_sorted_nodup_keys _ _ hperm_sort hs1 hsorted_canon hnd_sort
  refine ⟨hbucket, ?_, ?_⟩
  · unfold collect_in_order
    rw [heqsort, List.map_map]
    exact List.map_congr_left (fun k _ => rfl)
  · unfold collect_in_order
    rw [heqsort]
    simp

/-- A 1-unit bipolar network with a single relaxation iteration, used to
exercise the concurrent collection on a 3-state batch with 2 workers. -/
def witnessNet : HopfieldNetwork :=
  ⟨[[0]], 1, true, true, NetworkDomain.Bipolar, bipolar_activation_function, 1, 0⟩

def witnessStates : List Vec := [[5], [7], [9]]

def witnessTape : Nat → Nat → List Nat := fun _ _ => []

/-- Witness for C3: 3 states, 2 workers, messages received in an order that
differs from both the input order and the send order. -/
theorem concurrent_collection_ordered_witness :
    (∀ j, j < 2 → (partition_round_robin 2 witnessStates.enum).getD j []
        = witnessStates.enum.filter (fun p => p.1 % 2 == j)) ∧
    collect_in_order [(1, [-1]), (2, [-1]), (0, [-1])]
      = (List.range witnessStates.length).map
          (fun k => ((thread_results witnessNet 2 witnessStates witnessTape
            (k % 2)).lookup k).getD []) ∧
    (collect_in_order [(1, [-1]), (2, [-1]), (0, [-1])]).length
      = witnessStates.length := by
  refine concurrent_collection_ordered witnessNet witnessStates 2 witnessTape
    [(1, [-1]), (2, [-1]), (0, [-1])] (by decide) ?_
  have hall : all_thread_results witnessNet 2 witnessStates witnessTape
      = [(0, [-1]), (2, [-1]), (1, [-1])] := by
    with_unfolding_all rfl
  rw [hall]
  have hrev : ([(1, [-1]), (2, [-1]), (0, [-1])] : List (Nat × Vec))
      = ([(0, [-1]), (2, [-1]), (1, [-1])] : List (Nat × Vec)).reverse := by
    with_unfolding_all rfl
  rw [hrev]
  exact List.reverse_perm _

/- ### C4: single-worker concurrent run versus sequential relax_state -/

/-- The `main.rs`-style sequential baseline: relax each state of the batch in
turn on the engine's single stream, which advances by one shuffle per sweep. -/
def relax_collection_seq (net : HopfieldNetwork) (σ : Nat → List Nat) :
    Nat → List Vec → List Vec
  | _, [] => []
  | c, s :: rest =>
    (relaxGo net σ net.maximum_relaxation_iterations.toNat c s).1 ::
      relax_collection_seq net σ
        (c + (relaxGo net σ net.maximum_relaxation_iterations.toNat c s).2) rest

/-- An asymmetric 2-unit bipolar network with a 2-sweep budget. -/
def cexNet : HopfieldNetwork :=
  ⟨[[0, 1], [-1, 0]], 2, false, false, NetworkDomain.Bipolar,
    bipolar_activation_function, 2, 0⟩

/-- A draw tape: the first shuffle swaps the two indices, the second is the
identity draw. -/
def cexTape : Nat → List Nat := fun c => if c = 0 then [0] else [1]

/-- Counterexample to C4: with worker_count = 1, batch size 1 and identical
random draws on both sides, the concurrent path returns [1, 1] while
sequential `relax_state` returns [-1, 1].  The worker shuffles its one index
buffer in place across sweeps, while `update_state` reshuffles a fresh
ordered list each sweep, so from the second sweep on the visit orders - and
the numeric results - diverge. -/
theorem concurrent_single_worker_differs :
    collect_in_order (all_thread_results cexNet 1 [[1, 1]] (fun _ => cexTape))
      ≠ relax_collection_seq cexNet cexTape 0 [[1, 1]] := by
  have h1 : collect_in_order (all_thread_results cexNet 1 [[1, 1]] (fun _ => cexTape))
      = [[1, 1]] := by
    with_unfolding_all rfl
  have h2 : relax_collection_seq cexNet cexTape 0 [[1, 1]] = [[-1, 1]] := by
    with_unfolding_all rfl
  rw [h1, h2]
  intro hcontra
  have : (1 : ℚ) = -1 := by
    have h3 := List.head_eq_of_cons_eq hcontra
    exact List.head_eq_of_cons_eq h3
  norm_num at this

/- ### C4 amended: both paths under a shared visit-order oracle -/

/-- The relaxation loop of `relax_state`, with the visit order of each sweep
supplied directly by the oracle π (abstracting the shuffle); returns the
final state and the advanced oracle position. -/
def relaxGoO (M : Mat) (act : ActivationFunction) (maxUnstable : Int)
    (π : Nat → List Nat) : Nat → Nat → Vec → Vec × Nat
  | 0, c, s => (s, c)
  | fuel + 1, c, s =>
    let s2 := sweep_units M act (π c) s
    if (unstable_units_count M s2 : Int) < maxUnstable then (s2, c + 1)
    else relaxGoO M act maxUnstable π fuel (c + 1) s2

/-- Sequentially relax a batch under the visit-order oracle. -/
def relax_collection_seqO (M : Mat) (act : ActivationFunction)
    (maxIter maxUnstable : Int) (π : Nat → List Nat) : Nat → List Vec → List Vec
  | _, [] => []
  | c, s :: rest =>
    (relaxGoO M act maxUnstable π maxIter.toNat c s).1 ::
      relax_collection_seqO M act maxIter maxUnstable π
        (relaxGoO M act maxUnstable π maxIter.toNat c s).2 rest

/-- The duplicated inner loop of `concurrent_relax_thread_fn`, under the same
visit-order oracle. -/
def threadRelaxGoO (M : Mat) (act : ActivationFunction) (maxUnstable : Int)
    (π : Nat → List Nat) : Nat → Nat → Vec → Vec × Nat
  | 0, c, s => (s, c)
  | fuel + 1, c, s =>
    let s2 := sweep_units M act (π c) s
    if (unstable_units_count M s2 : Int) < maxUnstable then (s2, c + 1)
    else threadRelaxGoO M act maxUnstable π fuel (c + 1) s2

/-- The worker body under the visit-order oracle. -/
def concurrent_relax_thread_fnO (M : Mat) (act : ActivationFunction)
    (maxIter maxUnstable : Int) (π : Nat → List Nat) :
    Nat → List (Nat × Vec) → List (Nat × Vec)
  | _, [] => []
  | c, p :: rest =>
    (p.1, (threadRelaxGoO M act maxUnstable π maxIter.toNat c p.2).1) ::
      concurrent_relax_thread_fnO M act maxIter maxUnstable π
        (threadRelaxGoO M act maxUnstable π maxIter.toNat c p.2).2 rest

theorem threadRelaxGoO_eq_relaxGoO (M : Mat) (act : ActivationFunction)
    (maxUnstable : Int) (π : Nat → List Nat) :
    ∀ (fuel c : Nat) (s : Vec),
    threadRelaxGoO M act maxUnstable π fuel c s = relaxGoO M act maxUnstable π fuel c s := by
  intro fuel
  induction fuel with
  | zero => intro c s; rfl
  | succ fuel ih =>
    intro c s
    simp only [threadRelaxGoO, relaxGoO]
    rw [ih]

theorem relax_collection_seqO_length (M : Mat) (act : ActivationFunction)
    (maxIter maxUnstable : Int) (π : Nat → List Nat) :
    ∀ (states : List Vec) (c : Nat),
    (relax_collection_seqO M act maxIter maxUnstable π c states).length
      = states.length := by
  intro states
  induction states with
  | nil => intro c; rfl
  | cons s rest ih =>
    intro c
    simp only [relax_collection_seqO, List.length_cons]
    rw [ih]

theorem thread_fnO_eq_seqO (M : Mat) (act : ActivationFunction)
    (maxIter maxUnstable : Int) (π : Nat → List Nat) :
    ∀ (states : List Vec) (keys : List Nat) (c : Nat), keys.length = states.length →
    concurrent_relax_thread_fnO M act maxIter maxUnstable π c (keys.zip states)
      = keys.zip (relax_collection_seqO M act maxIter maxUnstable π c states) := by
  intro states
  induction states with
  | nil =>
    intro keys c hlen
    rw [List.length_nil, List.length_eq_zero] at hlen
    subst hlen
    rfl
  | cons s rest ih =>
    intro keys c hlen
    cases keys with
    | nil => simp at hlen
    | cons k keys2 =>
      simp only [List.length_cons, Nat.succ.injEq] at hlen
      simp only [List.zip_cons_cons, concurrent_relax_thread_fnO,
        relax_collection_seqO]
      rw [threadRelaxGoO_eq_relaxGoO]
      rw [show List.zipWith Prod.mk keys2 rest = keys2.zip rest from rfl]
      rw [ih keys2 _ hlen]

theorem collect_in_order_sorted (l : List (Nat × Vec))
    (hs : List.Sorted pairKeyLe l) (hnd : (l.map Prod.fst).Nodup) :
    collect_in_order l = l.map Prod.snd := by
  unfold collect_in_order
  have hnds : ((l.insertionSort pairKeyLe).map Prod.fst).Nodup :=
    (((List.perm_insertionSort pairKeyLe l).map Prod.fst).symm).nodup hnd
  rw [eq_of_perm_sorted_nodup_keys (l.insertionSort pairKeyLe) l
    (List.perm_insertionSort pairKeyLe l)
    (List.sorted_insertionSort pairKeyLe l) hs hnds]

/-- C4 amended: with worker_count = 1 the concurrent path runs the same
per-state relaxation algorithm as sequential `relax_state`, so whenever the
two runs use the same per-sweep visit orders (the oracle π), the collected
output equals the sequential outputs, in input order.  (Identical raw draws
do not guarantee identical visit orders - see the counterexample - because
the worker reuses its shuffled buffer.) -/
theorem concurrent_single_worker_matches_seq (M : Mat) (act : ActivationFunction)
    (maxIter maxUnstable : Int) (π : Nat → List Nat) (states : List Vec) :
    collect_in_order
      (concurrent_relax_thread_fnO M act maxIter maxUnstable π 0
        ((partition_round_robin 1 states.enum).getD 0 []))
      = relax_collection_seqO M act maxIter maxUnstable π 0 states := by
  have hbucket : (partition_round_robin 1 states.enum).getD 0 [] = states.enum := by
    unfold partition_round_robin
    rw [partition_getD 1 0 (by omega) (by omega) states.enum (List.replicate 1 []) rfl]
    rw [show (List.replicate 1 ([] : List (Nat × Vec))).getD 0 [] = [] from rfl]
    rw [List.nil_append]
    apply List.filter_eq_self.mpr
    intro p _
    simp [Nat.mod_one]
  rw [hbucket, List.enum_eq_zip_range,
    thread_fnO_eq_seqO M act maxIter maxUnstable π states (List.range states.length) 0
      (by simp)]
  have hlen : (relax_collection_seqO M act maxIter maxUnstable π 0 states).length
      = states.length := relax_collection_seqO_length ..
  have hsorted : List.Sorted pairKeyLe
      ((List.range states.length).zip
        (relax_collection_seqO M act maxIter maxUnstable π 0 states)) := by
    apply List.pairwise_iff_getElem.mpr
    intro i j hi hj hij
    have hzl : ((List.range states.length).zip
        (relax_collection_seqO M act maxIter maxUnstable π 0 states)).length
        = states.length := by
      rw [List.length_zip, List.length_range, hlen, Nat.min_self]
    rw [List.getElem_zip, List.getElem_zip]
    simp only [pairKeyLe, List.getElem_range]
    omega
  have hkeys : ((List.range states.length).zip
      (relax_collection_seqO M act maxIter maxUnstable π 0 states)).map Prod.fst
      = List.range states.length := by
    apply List.map_fst_zip
    rw [hlen, List.length_range]
  rw [collect_in_order_sorted _ hsorted (by rw [hkeys]; exact List.nodup_range _)]
  apply List.map_snd_zip
  rw [hlen, List.length_range]

/- ### Builders (`hopfield_network_builder.rs`, `state_generator_builder.rs`) -/

structure HopfieldNetworkBuilder where
  rand_matrix_init : Bool
  dimension : Nat
  force_symmetric : Bool
  force_zero_diagonal : Bool
  domain : NetworkDomain
  maximum_relaxation_unstable_units : Int
  maximum_relaxation_iterations : Int

def new_hopfield_network_builder : HopfieldNetworkBuilder :=
  ⟨false, 0, true, true, NetworkDomain.Unspecified, 0, 100⟩

/-- Gaussian matrix initialisation, with the draws supplied by an oracle. -/
def gauss_matrix (n : Nat) (g : Nat → ℚ) : Mat :=
  (List.range n).map (fun i => (List.range n).map (fun j => g (i * n + j)))

/-- `HopfieldNetworkBuilder::build`; each `panic!` becomes an error carrying
the source's message, in the source's check order. -/
def HopfieldNetworkBuilder.build (b : HopfieldNetworkBuilder) (g : Nat → ℚ) :
    Except String HopfieldNetwork :=
  if b.dimension = 0 then
    Except.error "HopfieldNetworkBuilder encountered an error during build! Dimension must be explicitly set to a positive integer!"
  else if b.domain = NetworkDomain.Unspecified then
    Except.error "HopfieldNetworkBuilder encountered an error during build! Domain must be explicitly set to a valid network domain!"
  else
    match map_domain_to_activation_function b.domain with
    | none =>
      Except.error "Error mapping domain to activation function. Domain does not have an associated activation function."
    | some f =>
      Except.ok
        ⟨if b.rand_matrix_init then gauss_matrix b.dimension g
          else zeroMatrix b.dimension,
         b.dimension, b.force_symmetric, b.force_zero_diagonal, b.domain, f,
         b.maximum_relaxation_iterations, b.maximum_relaxation_unstable_units⟩

structure StateGenerator where
  rng_seed : Nat
  dist_lower : ℚ
  dist_upper : ℚ
  activation_function : ActivationFunction
  dimension : Nat
  domain : NetworkDomain

structure StateGeneratorBuilder where
  random_lower_bound : ℚ
  random_upper_bound : ℚ
  generator_seed : Nat
  dimension : Nat
  domain : NetworkDomain

def new_state_generator_builder : StateGeneratorBuilder :=
  ⟨-1, 1, 0, 0, NetworkDomain.Unspecified⟩

/-- Modelled from the spec: the rand crate's `Uniform::from(low..high)` is
library code outside this repository; it aborts construction when the range
is empty (`low >= high`) and otherwise yields the distribution. -/
def uniform_from (lo hi : ℚ) : Except String (ℚ × ℚ) :=
  if lo < hi then Except.ok (lo, hi)
  else Except.error "Uniform::new called with low >= high"

/-- `StateGeneratorBuilder::check_valid`, exactly as written in the source.
Nothing in the source ever calls it. -/
def StateGeneratorBuilder.check_valid (b : StateGeneratorBuilder) :
    Except String Unit :=
  if b.random_lower_bound ≥ b.random_upper_bound then
    Except.error "StateGeneratorBuilder encountered an error during build! random_lower_bound must be strictly smaller than random_lower_bound!"
  else if b.dimension = 0 then
    Except.error "StateGeneratorBuilder encountered an error during build! Dimension must be strictly positive!"
  else if b.domain = NetworkDomain.Unspecified then
    Except.error "StateGeneratorBuilder encountered an error during build! Domain must be a valid network domain!"
  else Except.ok ()

/-- `StateGeneratorBuilder::build`: it does NOT call `check_valid`; the only
failure points are the distribution construction and the activation lookup.
`freshSeed` models the random seed drawn when `generator_seed` is 0. -/
def StateGeneratorBuilder.build (b : StateGeneratorBuilder) (freshSeed : Nat) :
    Except String StateGenerator :=
  let gen_seed := if b.generator_seed ≠ 0 then b.generator_seed else freshSeed
  match uniform_from b.random_lower_bound b.random_upper_bound with
  | Except.error e => Except.error e
  | Except.ok d =>
    match map_domain_to_activation_function b.domain with
    | none =>
      Except.error "Error mapping domain to activation function. Domain does not have an associated activation function."
    | some f => Except.ok ⟨gen_seed, d.1, d.2, f, b.dimension, b.domain⟩

/-- `StateGenerator::next_state`: dimension uniform draws (oracle) passed
through the activation function. -/
def StateGenerator.next_state (gen : StateGenerator) (draws : Nat → ℚ) : Vec :=
  gen.activation_function ((List.range gen.dimension).map draws)

/-- `StateGenerator::create_state_collection`. -/
def StateGenerator.create_state_collection (gen : StateGenerator)
    (num_states : Nat) (draws : Nat → Nat → ℚ) : List Vec :=
  (List.range num_states).map (fun i => gen.next_state (draws i))

/-- The defaults with only the domain set: the dimension stays at the
invalid value 0. -/
def zeroDimBuilder : StateGeneratorBuilder :=
  ⟨-1, 1, 0, 0, NetworkDomain.Binary⟩

/-- C5 fails on the code: `StateGeneratorBuilder::build` never calls
`check_valid`, so a dimension-0 generator builds successfully - and its
`next_state` silently returns empty states - even though the builder's own
validator rejects exactly this configuration.  The network builder, in
contrast, does validate dimension and domain eagerly. -/
theorem generator_build_skips_dimension_check :
    (zeroDimBuilder.build 1).isOk = true ∧
    zeroDimBuilder.check_valid = Except.error
      "StateGeneratorBuilder encountered an error during build! Dimension must be strictly positive!" ∧
    (∀ draws : Nat → ℚ, ∀ gen : StateGenerator,
      zeroDimBuilder.build 1 = Except.ok gen → gen.next_state draws = []) ∧
    (new_hopfield_network_builder.build (fun _ => 0)).isOk = false ∧
    ((⟨false, 3, true, true, NetworkDomain.Binary, 0, 100⟩ :
        HopfieldNetworkBuilder).build (fun _ => 0)).isOk = true := by
  refine ⟨?_, ?_, ?_, ?_, ?_⟩
  · with_unfolding_all rfl
  · with_unfolding_all rfl
  · intro draws gen h
    have hb : zeroDimBuilder.build 1
        = Except.ok ⟨1, -1, 1, binary_activation_function, 0, NetworkDomain.Binary⟩ := by
      with_unfolding_all rfl
    rw [hb] at h
    cases h
    rfl
  · with_unfolding_all rfl
  · with_unfolding_all rfl

/-- Witness for C5: the successfully built dimension-0 generator yields the
empty state for a concrete draw oracle. -/
theorem generator_build_skips_dimension_check_witness :
    StateGenerator.next_state
      ⟨1, -1, 1, binary_activation_function, 0, NetworkDomain.Binary⟩
      (fun _ => 5) = [] :=
  generator_build_skips_dimension_check.2.2.1 (fun _ => 5)
    ⟨1, -1, 1, binary_activation_function, 0, NetworkDomain.Binary⟩
    (by with_unfolding_all rfl)

end HopfieldVerify
